import Mathlib

/-!
Verification of the Apriori frequent-itemset pipeline of question_2.py.

Items are opaque totally ordered identifiers, modelled as natural numbers.
A transaction is a Python set of items, modelled as a duplicate-free list
(the loader builds each transaction with set(line.split())).
A Python defaultdict(int) is modelled by the structure Dict: a total value
function (default 0) together with the list of keys actually inserted, in
insertion order.  Python sets of pairs / triples (C2, L2, C3, L3) are
modelled as lists; only membership in them is ever observed.
Python's sorted(...) and list.sort(key=...) are modelled with
List.insertionSort, a stable sort; confidence values are modelled in ℚ.
-/

namespace Apriori

/-- Model of a Python defaultdict(int): total value function with default 0,
plus the list of keys that have been inserted, in insertion order. -/
structure Dict (α : Type) where
  val : α → ℕ
  keys : List α

/-- The empty defaultdict(int). -/
def Dict.empty {α : Type} : Dict α :=
  ⟨fun _ => 0, []⟩

/-- Model of d[k] += 1 on a defaultdict(int): the value at k is incremented
and k is appended to the key list if not already present. -/
def Dict.bump {α : Type} [DecidableEq α] (d : Dict α) (k : α) : Dict α :=
  ⟨fun x => if x = k then d.val x + 1 else d.val x,
   if k ∈ d.keys then d.keys else d.keys ++ [k]⟩

/-- Model of itertools.combinations(l, 2): all pairs (a, b) where a occurs
strictly before b in l, in the order itertools emits them. -/
def pairsOf : List ℕ → List (ℕ × ℕ)
  | [] => []
  | a :: rest => (rest.map fun b => (a, b)) ++ pairsOf rest

/-- Model of itertools.combinations(l, 3): all triples of elements in
occurrence order. -/
def triplesOf : List ℕ → List (ℕ × ℕ × ℕ)
  | [] => []
  | a :: rest => ((pairsOf rest).map fun bc => (a, bc.1, bc.2)) ++ triplesOf rest

/-- Model of the inner loop "for x in t: item_sup[x] += 1". -/
def bumpList {α : Type} [DecidableEq α] (d : Dict α) (ks : List α) : Dict α :=
  ks.foldl Dict.bump d

/-- Model of a counting loop that bumps each element of ps that lies in the
candidate list C (the "if p in C2 / tri in C3_set" guard). -/
def countIf {α : Type} [DecidableEq α] (C : List α) (d : Dict α) (ps : List α) : Dict α :=
  ps.foldl (fun d p => if p ∈ C then d.bump p else d) d

/-- MIN_SUPPORT constant of question_2.py (module-level configuration). -/
def MIN_SUPPORT : ℕ := 100

/-- TOP_K constant of question_2.py (module-level configuration). -/
def TOP_K : ℕ := 5

/-- apriori_L1 of question_2.py: counts the support of every item and returns
the item-support dict together with L1, the ascending sorted list of items
whose support reaches the threshold.  The module-global MIN_SUPPORT is passed
explicitly as minSup. -/
def apriori_L1 (minSup : ℕ) (transactions : List (List ℕ)) : Dict ℕ × List ℕ :=
  let item_sup := transactions.foldl (fun d t => bumpList d t) Dict.empty
  (item_sup,
   List.insertionSort (fun a b => a ≤ b)
     (item_sup.keys.filter fun x => decide (minSup ≤ item_sup.val x)))

/-- Candidate pairs C2 of apriori_L2: every 2-combination of L1 (the Python
code materialises combinations(L1, 2) into a set; only membership is used). -/
def apriori_C2 (L1 : List ℕ) : List (ℕ × ℕ) :=
  pairsOf L1

/-- One transaction step of the counting scan of apriori_L2: restrict the
transaction to items of L1, sort, enumerate 2-combinations, and bump the
pairs that are candidates in C2. -/
def pairStep (C2 : List (ℕ × ℕ)) (L1 : List ℕ) (d : Dict (ℕ × ℕ)) (t : List ℕ) :
    Dict (ℕ × ℕ) :=
  countIf C2 d (pairsOf (List.insertionSort (fun a b => a ≤ b) (t.filter fun x => decide (x ∈ L1))))

/-- apriori_L2 of question_2.py: candidate pairs from L1, one counting scan
over the transactions, and L2 = counted pairs meeting the threshold. -/
def apriori_L2 (minSup : ℕ) (transactions : List (List ℕ)) (L1 : List ℕ) :
    Dict (ℕ × ℕ) × List (ℕ × ℕ) :=
  let C2 := apriori_C2 L1
  let pair_sup := transactions.foldl (pairStep C2 L1) Dict.empty
  (pair_sup, pair_sup.keys.filter fun p => decide (minSup ≤ pair_sup.val p))

/-- Triples proposed for one first element a in apriori_C3_from_L2: the
second elements paired with a in L2 are collected (a set in Python, hence
dedup), sorted, joined into (a, b, c) with b < c, and pruned by requiring
all three 2-subsets to be frequent. -/
def prunedTriples (L2 : List (ℕ × ℕ)) (a : ℕ) : List (ℕ × ℕ × ℕ) :=
  (pairsOf (List.insertionSort (fun x y => x ≤ y)
      (((L2.filter fun p => decide (p.1 = a)).map Prod.snd).dedup))).filterMap
    fun bc =>
      if (a, bc.1) ∈ L2 ∧ (a, bc.2) ∈ L2 ∧ (bc.1, bc.2) ∈ L2 then some (a, bc.1, bc.2)
      else none

/-- apriori_C3_from_L2 of question_2.py: join L2 pairs sharing a first
element and prune candidates whose 2-subsets are not all in L2. -/
def apriori_C3_from_L2 (L2 : List (ℕ × ℕ)) : List (ℕ × ℕ × ℕ) :=
  ((L2.map Prod.fst).dedup).foldr (fun a acc => prunedTriples L2 a ++ acc) []

/-- One transaction step of the counting scan of apriori_L3: sort the full
transaction, enumerate 3-combinations, bump the candidate triples. -/
def tripleStep (C3 : List (ℕ × ℕ × ℕ)) (d : Dict (ℕ × ℕ × ℕ)) (t : List ℕ) :
    Dict (ℕ × ℕ × ℕ) :=
  countIf C3 d (triplesOf (List.insertionSort (fun a b => a ≤ b) t))

/-- apriori_L3 of question_2.py: if there are no candidates the scan is
skipped and empty results are returned; otherwise one counting scan over
the transactions, and L3 = counted triples meeting the threshold. -/
def apriori_L3 (minSup : ℕ) (transactions : List (List ℕ)) (C3 : List (ℕ × ℕ × ℕ)) :
    Dict (ℕ × ℕ × ℕ) × List (ℕ × ℕ × ℕ) :=
  if C3 = [] then (Dict.empty, [])
  else
    let triple_sup := transactions.foldl (tripleStep C3) Dict.empty
    (triple_sup, triple_sup.keys.filter fun tri => decide (minSup ≤ triple_sup.val tri))

/-- The two rules emitted for one frequent pair in top5_part_d, in emission
order: (sup_ab / item_sup[a], a, b, sup_ab) and (sup_ab / item_sup[b], b, a, sup_ab). -/
def rules_d (item_sup : Dict ℕ) (pair_sup : Dict (ℕ × ℕ)) :
    List (ℕ × ℕ) → List (ℚ × ℕ × ℕ × ℕ)
  | [] => []
  | p :: rest =>
      ((pair_sup.val p : ℚ) / (item_sup.val p.1 : ℚ), p.1, p.2, pair_sup.val p) ::
      ((pair_sup.val p : ℚ) / (item_sup.val p.2 : ℚ), p.2, p.1, pair_sup.val p) ::
      rules_d item_sup pair_sup rest

/-- The sort key order of top5_part_d: ascending in (-conf, lhs, rhs),
that is confidence descending, then LHS item ascending, then RHS item
ascending.  The support component is not part of the key. -/
def ruleOrd_d (r s : ℚ × ℕ × ℕ × ℕ) : Prop :=
  s.1 < r.1 ∨ (s.1 = r.1 ∧ (r.2.1 < s.2.1 ∨ (r.2.1 = s.2.1 ∧ r.2.2.1 ≤ s.2.2.1)))

instance : DecidableRel ruleOrd_d := by
  intro r s
  unfold ruleOrd_d
  infer_instance

/-- top5_part_d of question_2.py: emit both directional rules for every
frequent pair, sort by the key (-conf, lhs, rhs) and keep the first TOP_K.
The module-global TOP_K is passed explicitly as topK, and the iteration
order over the Python set L2 is the order of the list argument. -/
def top5_part_d (topK : ℕ) (item_sup : Dict ℕ) (pair_sup : Dict (ℕ × ℕ))
    (L2 : List (ℕ × ℕ)) : List (ℚ × ℕ × ℕ × ℕ) :=
  (List.insertionSort ruleOrd_d (rules_d item_sup pair_sup L2)).take topK

/-- The three rules emitted for one frequent triple (x, y, z) in top5_part_e:
(x,y) implies z, (x,z) implies y, (y,z) implies x, each with confidence
support(x,y,z) / support(LHS pair). -/
def rules_e (pair_sup : Dict (ℕ × ℕ)) (triple_sup : Dict (ℕ × ℕ × ℕ)) :
    List (ℕ × ℕ × ℕ) → List (ℚ × (ℕ × ℕ) × ℕ × ℕ)
  | [] => []
  | (x, y, z) :: rest =>
      ((triple_sup.val (x, y, z) : ℚ) / (pair_sup.val (x, y) : ℚ), (x, y), z,
        triple_sup.val (x, y, z)) ::
      ((triple_sup.val (x, y, z) : ℚ) / (pair_sup.val (x, z) : ℚ), (x, z), y,
        triple_sup.val (x, y, z)) ::
      ((triple_sup.val (x, y, z) : ℚ) / (pair_sup.val (y, z) : ℚ), (y, z), x,
        triple_sup.val (x, y, z)) ::
      rules_e pair_sup triple_sup rest

/-- The sort key order of top5_part_e: ascending in
(-conf, lhs first item, lhs second item, rhs). -/
def ruleOrd_e (r s : ℚ × (ℕ × ℕ) × ℕ × ℕ) : Prop :=
  s.1 < r.1 ∨ (s.1 = r.1 ∧
    (r.2.1.1 < s.2.1.1 ∨ (r.2.1.1 = s.2.1.1 ∧
      (r.2.1.2 < s.2.1.2 ∨ (r.2.1.2 = s.2.1.2 ∧ r.2.2.1 ≤ s.2.2.1)))))

instance : DecidableRel ruleOrd_e := by
  intro r s
  unfold ruleOrd_e
  infer_instance

/-- top5_part_e of question_2.py: emit the three rules of every frequent
triple, sort by the key (-conf, lhs pair, rhs) and keep the first TOP_K. -/
def top5_part_e (topK : ℕ) (pair_sup : Dict (ℕ × ℕ)) (triple_sup : Dict (ℕ × ℕ × ℕ))
    (L3 : List (ℕ × ℕ × ℕ)) : List (ℚ × (ℕ × ℕ) × ℕ × ℕ) :=
  (List.insertionSort ruleOrd_e (rules_e pair_sup triple_sup L3)).take topK

/-- The outputs that main() of question_2.py threads between the levels. -/
structure PipeOut where
  item_sup : Dict ℕ
  L1 : List ℕ
  pair_sup : Dict (ℕ × ℕ)
  L2 : List (ℕ × ℕ)
  C3 : List (ℕ × ℕ × ℕ)
  triple_sup : Dict (ℕ × ℕ × ℕ)
  L3 : List (ℕ × ℕ × ℕ)

/-- The level pipeline of main() of question_2.py: L1 from the transactions,
L2 from L1, candidate triples C3 from L2, L3 from C3. -/
def runPipeline (minSup : ℕ) (ts : List (List ℕ)) : PipeOut :=
  let i := apriori_L1 minSup ts
  let p := apriori_L2 minSup ts i.2
  let c3 := apriori_C3_from_L2 p.2
  let t3 := apriori_L3 minSup ts c3
  ⟨i.1, i.2, p.1, p.2, c3, t3.1, t3.2⟩

/-! Basic lemmas about pairsOf and triplesOf. -/

lemma mem_pairsOf_imp {l : List ℕ} {p : ℕ × ℕ} (h : p ∈ pairsOf l) :
    p.1 ∈ l ∧ p.2 ∈ l := by
  induction l with
  | nil => simp [pairsOf] at h
  | cons a rest ih =>
    simp only [pairsOf, List.mem_append, List.mem_map] at h
    rcases h with ⟨b, hb, hp⟩ | h
    · subst hp
      exact ⟨List.mem_cons_self a rest, List.mem_cons_of_mem a hb⟩
    · rcases ih h with ⟨h1, h2⟩
      exact ⟨List.mem_cons_of_mem a h1, List.mem_cons_of_mem a h2⟩

lemma mem_pairsOf_lt {l : List ℕ} (hl : l.Sorted (· < ·)) {p : ℕ × ℕ}
    (h : p ∈ pairsOf l) : p.1 < p.2 := by
  induction l with
  | nil => simp [pairsOf] at h
  | cons a rest ih =>
    simp only [pairsOf, List.mem_append, List.mem_map] at h
    rcases h with ⟨b, hb, hp⟩ | h
    · subst hp
      exact List.rel_of_sorted_cons hl b hb
    · exact ih hl.of_cons h

lemma mem_pairsOf_intro {l : List ℕ} (hl : l.Sorted (· ≤ ·)) {p : ℕ × ℕ}
    (h1 : p.1 ∈ l) (h2 : p.2 ∈ l) (hlt : p.1 < p.2) : p ∈ pairsOf l := by
  induction l with
  | nil => simp at h1
  | cons a rest ih =>
    simp only [pairsOf, List.mem_append, List.mem_map]
    rcases List.mem_cons.mp h1 with e1 | m1
    · have m2 : p.2 ∈ rest := by
        rcases List.mem_cons.mp h2 with e2 | m2
        · omega
        · exact m2
      exact Or.inl ⟨p.2, m2, by rw [← e1]⟩
    · have m2 : p.2 ∈ rest := by
        rcases List.mem_cons.mp h2 with e2 | m2
        · exfalso
          have := List.rel_of_sorted_cons hl p.1 m1
          omega
        · exact m2
      exact Or.inr (ih hl.of_cons m1 m2)

lemma pairsOf_nodup {l : List ℕ} (h : l.Nodup) : (pairsOf l).Nodup := by
  induction l with
  | nil => simp [pairsOf]
  | cons a rest ih =>
    rcases List.nodup_cons.mp h with ⟨ha, hrest⟩
    simp only [pairsOf]
    refine List.Nodup.append ?_ (ih hrest) ?_
    · exact hrest.map fun x y hxy => by
        simpa using congrArg Prod.snd hxy
    · intro p hp hq
      rcases List.mem_map.mp hp with ⟨b, _, hb⟩
      have := (mem_pairsOf_imp hq).1
      rw [← hb] at this
      exact ha this

lemma mem_triplesOf_imp {l : List ℕ} {q : ℕ × ℕ × ℕ} (h : q ∈ triplesOf l) :
    q.1 ∈ l ∧ q.2.1 ∈ l ∧ q.2.2 ∈ l := by
  induction l with
  | nil => simp [triplesOf] at h
  | cons a rest ih =>
    simp only [triplesOf, List.mem_append, List.mem_map] at h
    rcases h with ⟨bc, hbc, hq⟩ | h
    · rcases mem_pairsOf_imp hbc with ⟨h1, h2⟩
      subst hq
      exact ⟨List.mem_cons_self a rest, List.mem_cons_of_mem a h1,
        List.mem_cons_of_mem a h2⟩
    · rcases ih h with ⟨h1, h2, h3⟩
      exact ⟨List.mem_cons_of_mem a h1, List.mem_cons_of_mem a h2,
        List.mem_cons_of_mem a h3⟩

lemma mem_triplesOf_lt {l : List ℕ} (hl : l.Sorted (· < ·)) {q : ℕ × ℕ × ℕ}
    (h : q ∈ triplesOf l) : q.1 < q.2.1 ∧ q.2.1 < q.2.2 := by
  induction l with
  | nil => simp [triplesOf] at h
  | cons a rest ih =>
    simp only [triplesOf, List.mem_append, List.mem_map] at h
    rcases h with ⟨bc, hbc, hq⟩ | h
    · rcases mem_pairsOf_imp hbc with ⟨h1, _⟩
      have hbclt := mem_pairsOf_lt hl.of_cons hbc
      subst hq
      exact ⟨List.rel_of_sorted_cons hl bc.1 h1, hbclt⟩
    · exact ih hl.of_cons h

lemma mem_triplesOf_intro {l : List ℕ} (hl : l.Sorted (· ≤ ·)) {q : ℕ × ℕ × ℕ}
    (h1 : q.1 ∈ l) (h2 : q.2.1 ∈ l) (h3 : q.2.2 ∈ l)
    (hlt1 : q.1 < q.2.1) (hlt2 : q.2.1 < q.2.2) : q ∈ triplesOf l := by
  induction l with
  | nil => simp at h1
  | cons a rest ih =>
    simp only [triplesOf, List.mem_append, List.mem_map]
    rcases List.mem_cons.mp h1 with e1 | m1
    · left
      have m2 : q.2.1 ∈ rest := by
        rcases List.mem_cons.mp h2 with e2 | m2
        · exfalso
          rw [← e1] at e2
          omega
        · exact m2
      have m3 : q.2.2 ∈ rest := by
        rcases List.mem_cons.mp h3 with e3 | m3
        · exfalso
          rw [← e1] at e3
          omega
        · exact m3
      exact ⟨q.2, mem_pairsOf_intro hl.of_cons m2 m3 hlt2, by rw [← e1]⟩
    · right
      have m2 : q.2.1 ∈ rest := by
        rcases List.mem_cons.mp h2 with e2 | m2
        · exfalso
          have : a ≤ q.1 := List.rel_of_sorted_cons hl q.1 m1
          omega
        · exact m2
      have m3 : q.2.2 ∈ rest := by
        rcases List.mem_cons.mp h3 with e3 | m3
        · exfalso
          have : a ≤ q.1 := List.rel_of_sorted_cons hl q.1 m1
          omega
        · exact m3
      exact ih hl.of_cons m1 m2 m3

lemma triplesOf_nodup {l : List ℕ} (h : l.Nodup) : (triplesOf l).Nodup := by
  induction l with
  | nil => simp [triplesOf]
  | cons a rest ih =>
    rcases List.nodup_cons.mp h with ⟨ha, hrest⟩
    simp only [triplesOf]
    refine List.Nodup.append ?_ (ih hrest) ?_
    · refine (pairsOf_nodup hrest).map ?_
      intro x y hxy
      have e1 : x.1 = y.1 := congrArg (fun r => r.2.1) hxy
      have e2 : x.2 = y.2 := congrArg (fun r => r.2.2) hxy
      exact Prod.ext e1 e2
    · intro q hq hq2
      rcases List.mem_map.mp hq with ⟨bc, _, hbc⟩
      have := (mem_triplesOf_imp hq2).1
      rw [← hbc] at this
      exact ha this

/-! Basic lemmas about Dict updates and the counting folds. -/

lemma Dict.val_bump {α : Type} [DecidableEq α] (d : Dict α) (k x : α) :
    (d.bump k).val x = if x = k then d.val x + 1 else d.val x := rfl

lemma Dict.mem_keys_bump {α : Type} [DecidableEq α] (d : Dict α) (k x : α) :
    x ∈ (d.bump k).keys ↔ x ∈ d.keys ∨ x = k := by
  simp only [Dict.bump]
  by_cases h : k ∈ d.keys
  · simp only [if_pos h]
    constructor
    · exact Or.inl
    · rintro (hx | rfl)
      · exact hx
      · exact h
  · simp [if_neg h, or_comm]

lemma Dict.keys_bump_nodup {α : Type} [DecidableEq α] (d : Dict α) (k : α)
    (h : d.keys.Nodup) : (d.bump k).keys.Nodup := by
  simp only [Dict.bump]
  by_cases hk : k ∈ d.keys
  · simpa [if_pos hk]
  · rw [if_neg hk]
    refine List.Nodup.append h (by simp) ?_
    intro a ha hb
    rw [List.mem_singleton] at hb
    subst hb
    exact hk ha

lemma countIf_val {α : Type} [DecidableEq α] (C : List α) (ps : List α)
    (h : ps.Nodup) (d : Dict α) (q : α) :
    (countIf C d ps).val q = d.val q + (if q ∈ ps ∧ q ∈ C then 1 else 0) := by
  induction ps generalizing d with
  | nil => simp [countIf]
  | cons p rest ih =>
    rcases List.nodup_cons.mp h with ⟨hp, hrest⟩
    simp only [countIf, List.foldl_cons] at *
    rw [ih hrest]
    by_cases hpC : p ∈ C
    · by_cases hqp : q = p
      · subst hqp
        simp [hpC, hp, Dict.val_bump, List.mem_cons]
      · simp [hpC, Dict.val_bump, hqp, List.mem_cons]
    · by_cases hqp : q = p
      · subst hqp
        simp [hpC, hp, List.mem_cons]
      · simp [hpC, List.mem_cons, hqp]

lemma countIf_keys {α : Type} [DecidableEq α] (C : List α) (ps : List α)
    (d : Dict α) (q : α) :
    q ∈ (countIf C d ps).keys ↔ q ∈ d.keys ∨ (q ∈ ps ∧ q ∈ C) := by
  induction ps generalizing d with
  | nil => simp [countIf]
  | cons p rest ih =>
    simp only [countIf, List.foldl_cons] at *
    rw [ih]
    by_cases hpC : p ∈ C
    · simp only [if_pos hpC, Dict.mem_keys_bump]
      constructor
      · rintro ((h | rfl) | h)
        · exact Or.inl h
        · exact Or.inr ⟨List.mem_cons_self _ _, hpC⟩
        · exact Or.inr ⟨List.mem_cons_of_mem _ h.1, h.2⟩
      · rintro (h | ⟨hmem, hC⟩)
        · exact Or.inl (Or.inl h)
        · rcases List.mem_cons.mp hmem with rfl | h
          · exact Or.inl (Or.inr rfl)
          · exact Or.inr ⟨h, hC⟩
    · simp only [if_neg hpC]
      constructor
      · rintro (h | h)
        · exact Or.inl h
        · exact Or.inr ⟨List.mem_cons_of_mem _ h.1, h.2⟩
      · rintro (h | ⟨hmem, hC⟩)
        · exact Or.inl h
        · rcases List.mem_cons.mp hmem with rfl | h
          · exact absurd hC hpC
          · exact Or.inr ⟨h, hC⟩

lemma countIf_keys_nodup {α : Type} [DecidableEq α] (C : List α) (ps : List α)
    (d : Dict α) (h : d.keys.Nodup) : (countIf C d ps).keys.Nodup := by
  induction ps generalizing d with
  | nil => simpa [countIf]
  | cons p rest ih =>
    simp only [countIf, List.foldl_cons] at *
    by_cases hpC : p ∈ C
    · exact ih _ (by simp [if_pos hpC, Dict.keys_bump_nodup _ _ h])
    · exact ih _ (by simpa [if_neg hpC])

lemma countIf_keys_pos {α : Type} [DecidableEq α] (C : List α) (ps : List α)
    (d : Dict α) (h : ∀ x ∈ d.keys, 0 < d.val x) :
    ∀ x ∈ (countIf C d ps).keys, 0 < (countIf C d ps).val x := by
  induction ps generalizing d with
  | nil => simpa [countIf]
  | cons p rest ih =>
    simp only [countIf, List.foldl_cons] at *
    by_cases hpC : p ∈ C
    · rw [if_pos hpC]
      refine ih _ ?_
      intro x hx
      rw [Dict.val_bump]
      rcases (Dict.mem_keys_bump d p x).mp hx with hk | rfl
      · have := h x hk
        split <;> omega
      · simp
    · rw [if_neg hpC]
      exact ih _ h

lemma bumpList_val {α : Type} [DecidableEq α] (ks : List α) (h : ks.Nodup)
    (d : Dict α) (x : α) :
    (bumpList d ks).val x = d.val x + (if x ∈ ks then 1 else 0) := by
  induction ks generalizing d with
  | nil => simp [bumpList]
  | cons k rest ih =>
    rcases List.nodup_cons.mp h with ⟨hk, hrest⟩
    simp only [bumpList, List.foldl_cons] at *
    rw [ih hrest]
    by_cases hxk : x = k
    · subst hxk
      simp [Dict.val_bump, hk]
    · simp [Dict.val_bump, hxk, List.mem_cons]

lemma bumpList_keys {α : Type} [DecidableEq α] (ks : List α) (d : Dict α) (x : α) :
    x ∈ (bumpList d ks).keys ↔ x ∈ d.keys ∨ x ∈ ks := by
  induction ks generalizing d with
  | nil => simp [bumpList]
  | cons k rest ih =>
    simp only [bumpList, List.foldl_cons] at *
    rw [ih]
    rw [Dict.mem_keys_bump]
    constructor
    · rintro ((h | rfl) | h)
      · exact Or.inl h
      · exact Or.inr (List.mem_cons_self _ _)
      · exact Or.inr (List.mem_cons_of_mem _ h)
    · rintro (h | h)
      · exact Or.inl (Or.inl h)
      · rcases List.mem_cons.mp h with rfl | h
        · exact Or.inl (Or.inr rfl)
        · exact Or.inr h

lemma bumpList_keys_nodup {α : Type} [DecidableEq α] (ks : List α) (d : Dict α)
    (h : d.keys.Nodup) : (bumpList d ks).keys.Nodup := by
  induction ks generalizing d with
  | nil => simpa [bumpList]
  | cons k rest ih =>
    simp only [bumpList, List.foldl_cons] at *
    exact ih _ (Dict.keys_bump_nodup _ _ h)

lemma bumpList_keys_pos {α : Type} [DecidableEq α] (ks : List α) (d : Dict α)
    (h : ∀ x ∈ d.keys, 0 < d.val x) :
    ∀ x ∈ (bumpList d ks).keys, 0 < (bumpList d ks).val x := by
  induction ks generalizing d with
  | nil => simpa [bumpList]
  | cons k rest ih =>
    simp only [bumpList, List.foldl_cons] at *
    refine ih _ ?_
    intro x hx
    rw [Dict.val_bump]
    rcases (Dict.mem_keys_bump d k x).mp hx with hk | rfl
    · have := h x hk
      split <;> omega
    · simp

/-! Sortedness helpers. -/

lemma sorted_lt_of_le_nodup {l : List ℕ} (hs : l.Sorted (· ≤ ·)) (hn : l.Nodup) :
    l.Sorted (· < ·) :=
  (hs.and hn).imp fun h => lt_of_le_of_ne h.1 h.2

lemma insertionSort_sorted_le (l : List ℕ) :
    (List.insertionSort (fun a b => a ≤ b) l).Sorted (· ≤ ·) :=
  List.sorted_insertionSort _ l

lemma insertionSort_nodup {l : List ℕ} (hn : l.Nodup) :
    (List.insertionSort (fun a b => a ≤ b) l).Nodup :=
  (List.perm_insertionSort _ l).nodup_iff.mpr hn

lemma insertionSort_sorted_lt {l : List ℕ} (hn : l.Nodup) :
    (List.insertionSort (fun a b => a ≤ b) l).Sorted (· < ·) :=
  sorted_lt_of_le_nodup (insertionSort_sorted_le l) (insertionSort_nodup hn)

/-! The level-1 scan. -/

lemma itemScan_val (ts : List (List ℕ)) (hnd : ∀ t ∈ ts, t.Nodup) (d : Dict ℕ) (x : ℕ) :
    (ts.foldl (fun d t => bumpList d t) d).val x =
      d.val x + ts.countP (fun t => decide (x ∈ t)) := by
  induction ts generalizing d with
  | nil => simp
  | cons t rest ih =>
    simp only [List.foldl_cons, List.countP_cons]
    rw [ih (fun u hu => hnd u (List.mem_cons_of_mem _ hu)),
      bumpList_val t (hnd t (List.mem_cons_self _ _))]
    by_cases hx : x ∈ t
    · rw [if_pos hx, if_pos (decide_eq_true hx)]
      omega
    · rw [if_neg hx, if_neg (fun h => hx (of_decide_eq_true h))]
      omega

lemma itemScan_keys (ts : List (List ℕ)) (d : Dict ℕ) (x : ℕ) :
    x ∈ (ts.foldl (fun d t => bumpList d t) d).keys ↔
      x ∈ d.keys ∨ ∃ t ∈ ts, x ∈ t := by
  induction ts generalizing d with
  | nil => simp
  | cons t rest ih =>
    simp only [List.foldl_cons]
    rw [ih, bumpList_keys]
    constructor
    · rintro ((h | h) | ⟨u, hu, hx⟩)
      · exact Or.inl h
      · exact Or.inr ⟨t, List.mem_cons_self _ _, h⟩
      · exact Or.inr ⟨u, List.mem_cons_of_mem _ hu, hx⟩
    · rintro (h | ⟨u, hu, hx⟩)
      · exact Or.inl (Or.inl h)
      · rcases List.mem_cons.mp hu with rfl | hu
        · exact Or.inl (Or.inr hx)
        · exact Or.inr ⟨u, hu, hx⟩

lemma itemScan_keys_nodup (ts : List (List ℕ)) (d : Dict ℕ) (h : d.keys.Nodup) :
    (ts.foldl (fun d t => bumpList d t) d).keys.Nodup := by
  induction ts generalizing d with
  | nil => simpa
  | cons t rest ih =>
    simp only [List.foldl_cons]
    exact ih _ (bumpList_keys_nodup t d h)

lemma itemScan_keys_pos (ts : List (List ℕ)) (d : Dict ℕ)
    (h : ∀ x ∈ d.keys, 0 < d.val x) :
    ∀ x ∈ (ts.foldl (fun d t => bumpList d t) d).keys,
      0 < (ts.foldl (fun d t => bumpList d t) d).val x := by
  induction ts generalizing d with
  | nil => simpa
  | cons t rest ih =>
    simp only [List.foldl_cons]
    exact ih _ (bumpList_keys_pos t d h)

lemma apriori_L1_val (minSup : ℕ) (ts : List (List ℕ)) (hnd : ∀ t ∈ ts, t.Nodup)
    (x : ℕ) :
    (apriori_L1 minSup ts).1.val x = ts.countP fun t => decide (x ∈ t) := by
  have h := itemScan_val ts hnd Dict.empty x
  simpa [apriori_L1, Dict.empty] using h

lemma apriori_L1_keys (minSup : ℕ) (ts : List (List ℕ)) (x : ℕ) :
    x ∈ (apriori_L1 minSup ts).1.keys ↔ ∃ t ∈ ts, x ∈ t := by
  have h := itemScan_keys ts Dict.empty x
  simpa [apriori_L1, Dict.empty] using h

lemma apriori_L1_keys_nodup (minSup : ℕ) (ts : List (List ℕ)) :
    (apriori_L1 minSup ts).1.keys.Nodup := by
  have h := itemScan_keys_nodup ts Dict.empty (by simp [Dict.empty])
  simpa [apriori_L1] using h

lemma apriori_L1_pos (minSup : ℕ) (ts : List (List ℕ)) :
    ∀ x ∈ (apriori_L1 minSup ts).1.keys, 0 < (apriori_L1 minSup ts).1.val x := by
  have h := itemScan_keys_pos ts Dict.empty (by simp [Dict.empty])
  simpa [apriori_L1] using h

lemma mem_apriori_L1 (minSup : ℕ) (ts : List (List ℕ)) (x : ℕ) :
    x ∈ (apriori_L1 minSup ts).2 ↔
      x ∈ (apriori_L1 minSup ts).1.keys ∧ minSup ≤ (apriori_L1 minSup ts).1.val x := by
  simp [apriori_L1, List.mem_insertionSort, List.mem_filter]

lemma apriori_L1_sorted (minSup : ℕ) (ts : List (List ℕ)) :
    (apriori_L1 minSup ts).2.Sorted (· < ·) := by
  have hn : ((apriori_L1 minSup ts).1.keys.filter fun x =>
      decide (minSup ≤ (apriori_L1 minSup ts).1.val x)).Nodup :=
    (apriori_L1_keys_nodup minSup ts).filter _
  show (List.insertionSort (fun a b => a ≤ b) _).Sorted (· < ·)
  exact insertionSort_sorted_lt hn

/-! The level-2 scan. -/

lemma mem_apriori_C2 {L1 : List ℕ} (hL1 : L1.Sorted (· < ·)) {p : ℕ × ℕ} :
    p ∈ apriori_C2 L1 ↔ p.1 ∈ L1 ∧ p.2 ∈ L1 ∧ p.1 < p.2 := by
  constructor
  · intro h
    exact ⟨(mem_pairsOf_imp h).1, (mem_pairsOf_imp h).2, mem_pairsOf_lt hL1 h⟩
  · rintro ⟨h1, h2, h3⟩
    exact mem_pairsOf_intro hL1.le_of_lt h1 h2 h3

lemma pairStep_list_nodup {L1 t : List ℕ} (hnd : t.Nodup) :
    (pairsOf (List.insertionSort (fun a b => a ≤ b)
      (t.filter fun x => decide (x ∈ L1)))).Nodup :=
  pairsOf_nodup (insertionSort_nodup (hnd.filter _))

lemma pairScan_val (C2 : List (ℕ × ℕ)) (L1 : List ℕ) (ts : List (List ℕ))
    (hnd : ∀ t ∈ ts, t.Nodup) (d : Dict (ℕ × ℕ)) (q : ℕ × ℕ) :
    (ts.foldl (pairStep C2 L1) d).val q =
      d.val q + ts.countP (fun t => decide
        (q ∈ pairsOf (List.insertionSort (fun a b => a ≤ b)
          (t.filter fun x => decide (x ∈ L1))) ∧ q ∈ C2)) := by
  induction ts generalizing d with
  | nil => simp
  | cons t rest ih =>
    simp only [List.foldl_cons, List.countP_cons]
    rw [ih (fun u hu => hnd u (List.mem_cons_of_mem _ hu))]
    show (countIf C2 d _).val q + _ = _
    rw [countIf_val C2 _ (pairStep_list_nodup (hnd t (List.mem_cons_self _ _))) d q]
    by_cases hq : q ∈ pairsOf (List.insertionSort (fun a b => a ≤ b)
        (t.filter fun x => decide (x ∈ L1))) ∧ q ∈ C2
    · rw [if_pos hq, if_pos (decide_eq_true hq)]
      omega
    · rw [if_neg hq, if_neg (fun h => hq (of_decide_eq_true h))]
      omega

lemma pairScan_keys (C2 : List (ℕ × ℕ)) (L1 : List ℕ) (ts : List (List ℕ))
    (d : Dict (ℕ × ℕ)) (q : ℕ × ℕ) :
    q ∈ (ts.foldl (pairStep C2 L1) d).keys ↔
      q ∈ d.keys ∨ ∃ t ∈ ts,
        (q ∈ pairsOf (List.insertionSort (fun a b => a ≤ b)
          (t.filter fun x => decide (x ∈ L1))) ∧ q ∈ C2) := by
  induction ts generalizing d with
  | nil => simp
  | cons t rest ih =>
    simp only [List.foldl_cons]
    rw [ih]
    show (q ∈ (countIf C2 d _).keys ∨ _) ↔ _
    rw [countIf_keys]
    constructor
    · rintro ((h | h) | ⟨u, hu, hx⟩)
      · exact Or.inl h
      · exact Or.inr ⟨t, List.mem_cons_self _ _, h⟩
      · exact Or.inr ⟨u, List.mem_cons_of_mem _ hu, hx⟩
    · rintro (h | ⟨u, hu, hx⟩)
      · exact Or.inl (Or.inl h)
      · rcases List.mem_cons.mp hu with rfl | hu
        · exact Or.inl (Or.inr hx)
        · exact Or.inr ⟨u, hu, hx⟩

lemma pairScan_keys_nodup (C2 : List (ℕ × ℕ)) (L1 : List ℕ) (ts : List (List ℕ))
    (d : Dict (ℕ × ℕ)) (h : d.keys.Nodup) :
    (ts.foldl (pairStep C2 L1) d).keys.Nodup := by
  induction ts generalizing d with
  | nil => simpa
  | cons t rest ih =>
    simp only [List.foldl_cons]
    exact ih _ (countIf_keys_nodup _ _ _ h)

lemma pairScan_keys_pos (C2 : List (ℕ × ℕ)) (L1 : List ℕ) (ts : List (List ℕ))
    (d : Dict (ℕ × ℕ)) (h : ∀ x ∈ d.keys, 0 < d.val x) :
    ∀ x ∈ (ts.foldl (pairStep C2 L1) d).keys,
      0 < (ts.foldl (pairStep C2 L1) d).val x := by
  induction ts generalizing d with
  | nil => exact h
  | cons t rest ih =>
    simp only [List.foldl_cons]
    exact ih _ (countIf_keys_pos _ _ _ h)

lemma pair_pred_iff {L1 t : List ℕ} {q : ℕ × ℕ} (hL1 : L1.Sorted (· < ·))
    (hq : q ∈ apriori_C2 L1) :
    q ∈ pairsOf (List.insertionSort (fun a b => a ≤ b)
      (t.filter fun x => decide (x ∈ L1))) ↔ q.1 ∈ t ∧ q.2 ∈ t := by
  rcases (mem_apriori_C2 hL1).mp hq with ⟨hq1, hq2, hlt⟩
  have hperm := List.perm_insertionSort (fun a b => a ≤ b)
    (t.filter fun x => decide (x ∈ L1))
  constructor
  · intro h
    rcases mem_pairsOf_imp h with ⟨h1, h2⟩
    rw [hperm.mem_iff, List.mem_filter] at h1 h2
    exact ⟨h1.1, h2.1⟩
  · rintro ⟨h1, h2⟩
    refine mem_pairsOf_intro (insertionSort_sorted_le _) ?_ ?_ hlt
    · rw [hperm.mem_iff, List.mem_filter]
      exact ⟨h1, by simpa using hq1⟩
    · rw [hperm.mem_iff, List.mem_filter]
      exact ⟨h2, by simpa using hq2⟩

lemma apriori_L2_val (minSup : ℕ) (ts : List (List ℕ)) (L1 : List ℕ)
    (hnd : ∀ t ∈ ts, t.Nodup) (hL1 : L1.Sorted (· < ·)) (q : ℕ × ℕ)
    (hq : q ∈ apriori_C2 L1) :
    (apriori_L2 minSup ts L1).1.val q =
      ts.countP fun t => decide (q.1 ∈ t ∧ q.2 ∈ t) := by
  have h := pairScan_val (apriori_C2 L1) L1 ts hnd Dict.empty q
  simp only [apriori_L2, Dict.empty] at h ⊢
  rw [h]
  simp only [Nat.zero_add]
  refine List.countP_congr ?_
  intro t _
  simp only [decide_eq_true_eq]
  rw [pair_pred_iff hL1 hq]
  simp [hq]

lemma apriori_L2_keys (minSup : ℕ) (ts : List (List ℕ)) (L1 : List ℕ)
    (hL1 : L1.Sorted (· < ·)) (q : ℕ × ℕ) :
    q ∈ (apriori_L2 minSup ts L1).1.keys ↔
      q ∈ apriori_C2 L1 ∧ ∃ t ∈ ts, q.1 ∈ t ∧ q.2 ∈ t := by
  have h := pairScan_keys (apriori_C2 L1) L1 ts Dict.empty q
  simp only [apriori_L2, Dict.empty] at h ⊢
  rw [h]
  simp only [List.not_mem_nil, false_or]
  constructor
  · rintro ⟨t, ht, hmem, hC2⟩
    exact ⟨hC2, t, ht, (pair_pred_iff hL1 hC2).mp hmem⟩
  · rintro ⟨hC2, t, ht, hmem⟩
    exact ⟨t, ht, (pair_pred_iff hL1 hC2).mpr hmem, hC2⟩

lemma apriori_L2_keys_nodup (minSup : ℕ) (ts : List (List ℕ)) (L1 : List ℕ) :
    (apriori_L2 minSup ts L1).1.keys.Nodup := by
  have h := pairScan_keys_nodup (apriori_C2 L1) L1 ts Dict.empty (by simp [Dict.empty])
  simpa [apriori_L2] using h

lemma apriori_L2_pos (minSup : ℕ) (ts : List (List ℕ)) (L1 : List ℕ) :
    ∀ q ∈ (apriori_L2 minSup ts L1).1.keys, 0 < (apriori_L2 minSup ts L1).1.val q := by
  have h := pairScan_keys_pos (apriori_C2 L1) L1 ts Dict.empty (by simp [Dict.empty])
  simpa [apriori_L2] using h

lemma mem_apriori_L2 (minSup : ℕ) (ts : List (List ℕ)) (L1 : List ℕ) (q : ℕ × ℕ) :
    q ∈ (apriori_L2 minSup ts L1).2 ↔
      q ∈ (apriori_L2 minSup ts L1).1.keys ∧
        minSup ≤ (apriori_L2 minSup ts L1).1.val q := by
  simp [apriori_L2, List.mem_filter]

/-! The join and prune step producing C3. -/

lemma mem_secondsOf {L2 : List (ℕ × ℕ)} {a x : ℕ} :
    x ∈ List.insertionSort (fun x y => x ≤ y)
      (((L2.filter fun p => decide (p.1 = a)).map Prod.snd).dedup) ↔ (a, x) ∈ L2 := by
  rw [List.mem_insertionSort, List.mem_dedup, List.mem_map]
  constructor
  · rintro ⟨p, hp, rfl⟩
    rcases List.mem_filter.mp hp with ⟨hmem, heq⟩
    have : p.1 = a := of_decide_eq_true heq
    rwa [← this]
  · intro h
    exact ⟨(a, x), List.mem_filter.mpr ⟨h, by simp⟩, rfl⟩

lemma secondsOf_sorted_lt (L2 : List (ℕ × ℕ)) (a : ℕ) :
    (List.insertionSort (fun x y => x ≤ y)
      (((L2.filter fun p => decide (p.1 = a)).map Prod.snd).dedup)).Sorted (· < ·) :=
  insertionSort_sorted_lt (List.nodup_dedup _)

lemma mem_prunedTriples {L2 : List (ℕ × ℕ)} {a : ℕ} {q : ℕ × ℕ × ℕ} :
    q ∈ prunedTriples L2 a ↔
      q.1 = a ∧ (a, q.2.1) ∈ L2 ∧ (a, q.2.2) ∈ L2 ∧
        (q.2.1, q.2.2) ∈ L2 ∧ q.2.1 < q.2.2 := by
  unfold prunedTriples
  rw [List.mem_filterMap]
  constructor
  · rintro ⟨bc, hbc, hsome⟩
    by_cases hcond : (a, bc.1) ∈ L2 ∧ (a, bc.2) ∈ L2 ∧ (bc.1, bc.2) ∈ L2
    · rw [if_pos hcond] at hsome
      have hq : q = (a, bc.1, bc.2) := (Option.some_inj.mp hsome).symm
      subst hq
      have hlt := mem_pairsOf_lt (secondsOf_sorted_lt L2 a) hbc
      exact ⟨rfl, hcond.1, hcond.2.1, hcond.2.2, hlt⟩
    · rw [if_neg hcond] at hsome
      exact absurd hsome (by simp)
  · rintro ⟨ha, h1, h2, h3, hlt⟩
    refine ⟨(q.2.1, q.2.2), ?_, ?_⟩
    · refine mem_pairsOf_intro ((secondsOf_sorted_lt L2 a).le_of_lt) ?_ ?_ hlt
      · exact mem_secondsOf.mpr h1
      · exact mem_secondsOf.mpr h2
    · rw [if_pos ⟨h1, h2, h3⟩]
      rw [← ha]

lemma mem_apriori_C3 {L2 : List (ℕ × ℕ)} {q : ℕ × ℕ × ℕ} :
    q ∈ apriori_C3_from_L2 L2 ↔
      (q.1, q.2.1) ∈ L2 ∧ (q.1, q.2.2) ∈ L2 ∧
        (q.2.1, q.2.2) ∈ L2 ∧ q.2.1 < q.2.2 := by
  unfold apriori_C3_from_L2
  have hfold : ∀ fs : List ℕ,
      q ∈ fs.foldr (fun a acc => prunedTriples L2 a ++ acc) [] ↔
        ∃ a ∈ fs, q ∈ prunedTriples L2 a := by
    intro fs
    induction fs with
    | nil => simp
    | cons a rest ih =>
      simp only [List.foldr_cons, List.mem_append, ih, List.mem_cons]
      constructor
      · rintro (h | ⟨b, hb, hq⟩)
        · exact ⟨a, Or.inl rfl, h⟩
        · exact ⟨b, Or.inr hb, hq⟩
      · rintro ⟨b, rfl | hb, hq⟩
        · exact Or.inl hq
        · exact Or.inr ⟨b, hb, hq⟩
  rw [hfold]
  constructor
  · rintro ⟨a, _, hq⟩
    rcases mem_prunedTriples.mp hq with ⟨rfl, h1, h2, h3, hlt⟩
    exact ⟨h1, h2, h3, hlt⟩
  · rintro ⟨h1, h2, h3, hlt⟩
    refine ⟨q.1, ?_, mem_prunedTriples.mpr ⟨rfl, h1, h2, h3, hlt⟩⟩
    rw [List.mem_dedup]
    exact List.mem_map.mpr ⟨(q.1, q.2.1), h1, rfl⟩

/-! The level-3 scan. -/

lemma tripleStep_list_nodup {t : List ℕ} (hnd : t.Nodup) :
    (triplesOf (List.insertionSort (fun a b => a ≤ b) t)).Nodup :=
  triplesOf_nodup (insertionSort_nodup hnd)

lemma tripleScan_val (C3 : List (ℕ × ℕ × ℕ)) (ts : List (List ℕ))
    (hnd : ∀ t ∈ ts, t.Nodup) (d : Dict (ℕ × ℕ × ℕ)) (q : ℕ × ℕ × ℕ) :
    (ts.foldl (tripleStep C3) d).val q =
      d.val q + ts.countP (fun t => decide
        (q ∈ triplesOf (List.insertionSort (fun a b => a ≤ b) t) ∧ q ∈ C3)) := by
  induction ts generalizing d with
  | nil => simp
  | cons t rest ih =>
    simp only [List.foldl_cons, List.countP_cons]
    rw [ih (fun u hu => hnd u (List.mem_cons_of_mem _ hu))]
    show (countIf C3 d _).val q + _ = _
    rw [countIf_val C3 _ (tripleStep_list_nodup (hnd t (List.mem_cons_self _ _))) d q]
    by_cases hq : q ∈ triplesOf (List.insertionSort (fun a b => a ≤ b) t) ∧ q ∈ C3
    · rw [if_pos hq, if_pos (decide_eq_true hq)]
      omega
    · rw [if_neg hq, if_neg (fun h => hq (of_decide_eq_true h))]
      omega

lemma tripleScan_keys (C3 : List (ℕ × ℕ × ℕ)) (ts : List (List ℕ))
    (d : Dict (ℕ × ℕ × ℕ)) (q : ℕ × ℕ × ℕ) :
    q ∈ (ts.foldl (tripleStep C3) d).keys ↔
      q ∈ d.keys ∨ ∃ t ∈ ts,
        (q ∈ triplesOf (List.insertionSort (fun a b => a ≤ b) t) ∧ q ∈ C3) := by
  induction ts generalizing d with
  | nil => simp
  | cons t rest ih =>
    simp only [List.foldl_cons]
    rw [ih]
    show (q ∈ (countIf C3 d _).keys ∨ _) ↔ _
    rw [countIf_keys]
    constructor
    · rintro ((h | h) | ⟨u, hu, hx⟩)
      · exact Or.inl h
      · exact Or.inr ⟨t, List.mem_cons_self _ _, h⟩
      · exact Or.inr ⟨u, List.mem_cons_of_mem _ hu, hx⟩
    · rintro (h | ⟨u, hu, hx⟩)
      · exact Or.inl (Or.inl h)
      · rcases List.mem_cons.mp hu with rfl | hu
        · exact Or.inl (Or.inr hx)
        · exact Or.inr ⟨u, hu, hx⟩

lemma tripleScan_keys_nodup (C3 : List (ℕ × ℕ × ℕ)) (ts : List (List ℕ))
    (d : Dict (ℕ × ℕ × ℕ)) (h : d.keys.Nodup) :
    (ts.foldl (tripleStep C3) d).keys.Nodup := by
  induction ts generalizing d with
  | nil => exact h
  | cons t rest ih =>
    simp only [List.foldl_cons]
    exact ih _ (countIf_keys_nodup _ _ _ h)

lemma tripleScan_keys_pos (C3 : List (ℕ × ℕ × ℕ)) (ts : List (List ℕ))
    (d : Dict (ℕ × ℕ × ℕ)) (h : ∀ x ∈ d.keys, 0 < d.val x) :
    ∀ x ∈ (ts.foldl (tripleStep C3) d).keys,
      0 < (ts.foldl (tripleStep C3) d).val x := by
  induction ts generalizing d with
  | nil => exact h
  | cons t rest ih =>
    simp only [List.foldl_cons]
    exact ih _ (countIf_keys_pos _ _ _ h)

lemma triple_pred_iff {t : List ℕ} {q : ℕ × ℕ × ℕ}
    (hcanon : q.1 < q.2.1 ∧ q.2.1 < q.2.2) :
    q ∈ triplesOf (List.insertionSort (fun a b => a ≤ b) t) ↔
      q.1 ∈ t ∧ q.2.1 ∈ t ∧ q.2.2 ∈ t := by
  have hperm := List.perm_insertionSort (fun a b => a ≤ b) t
  constructor
  · intro h
    rcases mem_triplesOf_imp h with ⟨h1, h2, h3⟩
    rw [hperm.mem_iff] at h1 h2 h3
    exact ⟨h1, h2, h3⟩
  · rintro ⟨h1, h2, h3⟩
    refine mem_triplesOf_intro (insertionSort_sorted_le t) ?_ ?_ ?_ hcanon.1 hcanon.2
    · rwa [hperm.mem_iff]
    · rwa [hperm.mem_iff]
    · rwa [hperm.mem_iff]

lemma apriori_L3_val (minSup : ℕ) (ts : List (List ℕ)) (C3 : List (ℕ × ℕ × ℕ))
    (hnd : ∀ t ∈ ts, t.Nodup)
    (hcanon : ∀ q ∈ C3, q.1 < q.2.1 ∧ q.2.1 < q.2.2) (q : ℕ × ℕ × ℕ)
    (hq : q ∈ C3) :
    (apriori_L3 minSup ts C3).1.val q =
      ts.countP fun t => decide (q.1 ∈ t ∧ q.2.1 ∈ t ∧ q.2.2 ∈ t) := by
  have hne : C3 ≠ [] := by
    intro h
    rw [h] at hq
    simp at hq
  unfold apriori_L3
  rw [if_neg hne]
  have h := tripleScan_val C3 ts hnd Dict.empty q
  simp only [Dict.empty] at h ⊢
  rw [h]
  simp only [Nat.zero_add]
  refine List.countP_congr ?_
  intro t _
  simp only [decide_eq_true_eq]
  rw [triple_pred_iff (hcanon q hq)]
  simp [hq]

lemma apriori_L3_keys (minSup : ℕ) (ts : List (List ℕ)) (C3 : List (ℕ × ℕ × ℕ))
    (hcanon : ∀ q ∈ C3, q.1 < q.2.1 ∧ q.2.1 < q.2.2) (q : ℕ × ℕ × ℕ) :
    q ∈ (apriori_L3 minSup ts C3).1.keys ↔
      q ∈ C3 ∧ ∃ t ∈ ts, q.1 ∈ t ∧ q.2.1 ∈ t ∧ q.2.2 ∈ t := by
  unfold apriori_L3
  by_cases hne : C3 = []
  · subst hne
    simp [Dict.empty]
  · rw [if_neg hne]
    have h := tripleScan_keys C3 ts Dict.empty q
    simp only [Dict.empty] at h ⊢
    rw [h]
    simp only [List.not_mem_nil, false_or]
    constructor
    · rintro ⟨t, ht, hmem, hC3⟩
      exact ⟨hC3, t, ht, (triple_pred_iff (hcanon q hC3)).mp hmem⟩
    · rintro ⟨hC3, t, ht, hmem⟩
      exact ⟨t, ht, (triple_pred_iff (hcanon q hC3)).mpr hmem, hC3⟩

lemma apriori_L3_keys_sub (minSup : ℕ) (ts : List (List ℕ))
    (C3 : List (ℕ × ℕ × ℕ)) (q : ℕ × ℕ × ℕ)
    (h : q ∈ (apriori_L3 minSup ts C3).1.keys) : q ∈ C3 := by
  unfold apriori_L3 at h
  by_cases hne : C3 = []
  · subst hne
    simp [Dict.empty] at h
  · rw [if_neg hne] at h
    have hk := (tripleScan_keys C3 ts Dict.empty q).mp h
    simp only [Dict.empty, List.not_mem_nil, false_or] at hk
    rcases hk with ⟨t, _, _, hC3⟩
    exact hC3

lemma apriori_L3_pos (minSup : ℕ) (ts : List (List ℕ)) (C3 : List (ℕ × ℕ × ℕ)) :
    ∀ q ∈ (apriori_L3 minSup ts C3).1.keys, 0 < (apriori_L3 minSup ts C3).1.val q := by
  unfold apriori_L3
  by_cases hne : C3 = []
  · subst hne
    simp [Dict.empty]
  · rw [if_neg hne]
    exact tripleScan_keys_pos C3 ts Dict.empty (by simp [Dict.empty])

lemma mem_apriori_L3 (minSup : ℕ) (ts : List (List ℕ)) (C3 : List (ℕ × ℕ × ℕ))
    (q : ℕ × ℕ × ℕ) :
    q ∈ (apriori_L3 minSup ts C3).2 ↔
      q ∈ (apriori_L3 minSup ts C3).1.keys ∧
        minSup ≤ (apriori_L3 minSup ts C3).1.val q := by
  unfold apriori_L3
  by_cases hne : C3 = []
  · subst hne
    simp [Dict.empty]
  · rw [if_neg hne]
    simp [List.mem_filter]

/-! The rule sort orders are total and transitive. -/

instance : IsTotal (ℚ × ℕ × ℕ × ℕ) ruleOrd_d := by
  constructor
  intro r s
  rcases lt_trichotomy r.1 s.1 with h | h | h
  · exact Or.inr (Or.inl h)
  · rcases Nat.lt_trichotomy r.2.1 s.2.1 with h2 | h2 | h2
    · exact Or.inl (Or.inr ⟨h.symm, Or.inl h2⟩)
    · rcases Nat.le_total r.2.2.1 s.2.2.1 with h3 | h3
      · exact Or.inl (Or.inr ⟨h.symm, Or.inr ⟨h2, h3⟩⟩)
      · exact Or.inr (Or.inr ⟨h, Or.inr ⟨h2.symm, h3⟩⟩)
    · exact Or.inr (Or.inr ⟨h, Or.inl h2⟩)
  · exact Or.inl (Or.inl h)

instance : IsTrans (ℚ × ℕ × ℕ × ℕ) ruleOrd_d := by
  constructor
  intro r s t h1 h2
  rcases h1 with a1 | ⟨e1, i1⟩ <;> rcases h2 with a2 | ⟨e2, i2⟩
  · exact Or.inl (lt_trans a2 a1)
  · exact Or.inl (e2 ▸ a1)
  · exact Or.inl (e1 ▸ a2)
  · refine Or.inr ⟨e2.trans e1, ?_⟩
    rcases i1 with b1 | ⟨f1, g1⟩ <;> rcases i2 with b2 | ⟨f2, g2⟩
    · exact Or.inl (lt_trans b1 b2)
    · exact Or.inl (f2 ▸ b1)
    · exact Or.inl (f1 ▸ b2)
    · exact Or.inr ⟨f1.trans f2, le_trans g1 g2⟩

instance : IsTotal (ℚ × (ℕ × ℕ) × ℕ × ℕ) ruleOrd_e := by
  constructor
  intro r s
  rcases lt_trichotomy r.1 s.1 with h | h | h
  · exact Or.inr (Or.inl h)
  · rcases Nat.lt_trichotomy r.2.1.1 s.2.1.1 with h2 | h2 | h2
    · exact Or.inl (Or.inr ⟨h.symm, Or.inl h2⟩)
    · rcases Nat.lt_trichotomy r.2.1.2 s.2.1.2 with h3 | h3 | h3
      · exact Or.inl (Or.inr ⟨h.symm, Or.inr ⟨h2, Or.inl h3⟩⟩)
      · rcases Nat.le_total r.2.2.1 s.2.2.1 with h4 | h4
        · exact Or.inl (Or.inr ⟨h.symm, Or.inr ⟨h2, Or.inr ⟨h3, h4⟩⟩⟩)
        · exact Or.inr (Or.inr ⟨h, Or.inr ⟨h2.symm, Or.inr ⟨h3.symm, h4⟩⟩⟩)
      · exact Or.inr (Or.inr ⟨h, Or.inr ⟨h2.symm, Or.inl h3⟩⟩)
    · exact Or.inr (Or.inr ⟨h, Or.inl h2⟩)
  · exact Or.inl (Or.inl h)

instance : IsTrans (ℚ × (ℕ × ℕ) × ℕ × ℕ) ruleOrd_e := by
  constructor
  intro r s t h1 h2
  rcases h1 with a1 | ⟨e1, i1⟩ <;> rcases h2 with a2 | ⟨e2, i2⟩
  · exact Or.inl (lt_trans a2 a1)
  · exact Or.inl (e2 ▸ a1)
  · exact Or.inl (e1 ▸ a2)
  · refine Or.inr ⟨e2.trans e1, ?_⟩
    rcases i1 with b1 | ⟨f1, j1⟩ <;> rcases i2 with b2 | ⟨f2, j2⟩
    · exact Or.inl (lt_trans b1 b2)
    · exact Or.inl (f2 ▸ b1)
    · exact Or.inl (f1 ▸ b2)
    · refine Or.inr ⟨f1.trans f2, ?_⟩
      rcases j1 with c1 | ⟨g1, k1⟩ <;> rcases j2 with c2 | ⟨g2, k2⟩
      · exact Or.inl (lt_trans c1 c2)
      · exact Or.inl (g2 ▸ c1)
      · exact Or.inl (g1 ▸ c2)
      · exact Or.inr ⟨g1.trans g2, le_trans k1 k2⟩

lemma ruleOrd_d_conf_le {r s : ℚ × ℕ × ℕ × ℕ} (h : ruleOrd_d r s) : s.1 ≤ r.1 := by
  rcases h with h | ⟨h, _⟩
  · exact le_of_lt h
  · exact le_of_eq h

lemma ruleOrd_e_conf_le {r s : ℚ × (ℕ × ℕ) × ℕ × ℕ} (h : ruleOrd_e r s) : s.1 ≤ r.1 := by
  rcases h with h | ⟨h, _⟩
  · exact le_of_lt h
  · exact le_of_eq h

lemma ruleOrd_d_antisymm {r s : ℚ × ℕ × ℕ × ℕ} (h1 : ruleOrd_d r s)
    (h2 : ruleOrd_d s r) : r.1 = s.1 ∧ r.2.1 = s.2.1 ∧ r.2.2.1 = s.2.2.1 := by
  rcases h1 with a1 | ⟨e1, i1⟩ <;> rcases h2 with a2 | ⟨e2, i2⟩
  · exact absurd (lt_trans a1 a2) (lt_irrefl _)
  · exact absurd (e2 ▸ a1) (lt_irrefl _)
  · exact absurd (e1 ▸ a2) (lt_irrefl _)
  · refine ⟨e1.symm, ?_⟩
    rcases i1 with b1 | ⟨f1, g1⟩ <;> rcases i2 with b2 | ⟨f2, g2⟩ <;> omega

lemma ruleOrd_e_antisymm {r s : ℚ × (ℕ × ℕ) × ℕ × ℕ} (h1 : ruleOrd_e r s)
    (h2 : ruleOrd_e s r) :
    r.1 = s.1 ∧ r.2.1.1 = s.2.1.1 ∧ r.2.1.2 = s.2.1.2 ∧ r.2.2.1 = s.2.2.1 := by
  rcases h1 with a1 | ⟨e1, i1⟩ <;> rcases h2 with a2 | ⟨e2, i2⟩
  · exact absurd (lt_trans a1 a2) (lt_irrefl _)
  · exact absurd (e2 ▸ a1) (lt_irrefl _)
  · exact absurd (e1 ▸ a2) (lt_irrefl _)
  · refine ⟨e1.symm, ?_⟩
    rcases i1 with b1 | ⟨f1, j1⟩ <;> rcases i2 with b2 | ⟨f2, j2⟩
    · omega
    · omega
    · omega
    · refine ⟨f1, ?_⟩
      rcases j1 with c1 | ⟨g1, k1⟩ <;> rcases j2 with c2 | ⟨g2, k2⟩ <;> omega

/-! Membership and permutation lemmas for the emitted rule lists. -/

lemma mem_rules_d {dI : Dict ℕ} {dP : Dict (ℕ × ℕ)} {l : List (ℕ × ℕ)}
    {r : ℚ × ℕ × ℕ × ℕ} :
    r ∈ rules_d dI dP l ↔ ∃ p ∈ l,
      r = ((dP.val p : ℚ) / (dI.val p.1 : ℚ), p.1, p.2, dP.val p) ∨
      r = ((dP.val p : ℚ) / (dI.val p.2 : ℚ), p.2, p.1, dP.val p) := by
  induction l with
  | nil => simp [rules_d]
  | cons p rest ih =>
    simp only [rules_d, List.mem_cons, ih]
    constructor
    · rintro (rfl | rfl | ⟨q, hq, h⟩)
      · exact ⟨p, Or.inl rfl, Or.inl rfl⟩
      · exact ⟨p, Or.inl rfl, Or.inr rfl⟩
      · exact ⟨q, Or.inr hq, h⟩
    · rintro ⟨q, rfl | hq, h⟩
      · rcases h with rfl | rfl
        · exact Or.inl rfl
        · exact Or.inr (Or.inl rfl)
      · exact Or.inr (Or.inr ⟨q, hq, h⟩)

lemma mem_rules_e {dP : Dict (ℕ × ℕ)} {dT : Dict (ℕ × ℕ × ℕ)}
    {l : List (ℕ × ℕ × ℕ)} {r : ℚ × (ℕ × ℕ) × ℕ × ℕ} :
    r ∈ rules_e dP dT l ↔ ∃ q ∈ l,
      r = ((dT.val q : ℚ) / (dP.val (q.1, q.2.1) : ℚ), (q.1, q.2.1), q.2.2, dT.val q) ∨
      r = ((dT.val q : ℚ) / (dP.val (q.1, q.2.2) : ℚ), (q.1, q.2.2), q.2.1, dT.val q) ∨
      r = ((dT.val q : ℚ) / (dP.val (q.2.1, q.2.2) : ℚ), (q.2.1, q.2.2), q.1, dT.val q) := by
  induction l with
  | nil => simp [rules_e]
  | cons p rest ih =>
    obtain ⟨x, y, z⟩ := p
    simp only [rules_e, List.mem_cons, ih]
    constructor
    · rintro (rfl | rfl | rfl | ⟨q, hq, h⟩)
      · exact ⟨(x, y, z), Or.inl rfl, Or.inl rfl⟩
      · exact ⟨(x, y, z), Or.inl rfl, Or.inr (Or.inl rfl)⟩
      · exact ⟨(x, y, z), Or.inl rfl, Or.inr (Or.inr rfl)⟩
      · exact ⟨q, Or.inr hq, h⟩
    · rintro ⟨q, rfl | hq, h⟩
      · rcases h with rfl | rfl | rfl
        · exact Or.inl rfl
        · exact Or.inr (Or.inl rfl)
        · exact Or.inr (Or.inr (Or.inl rfl))
      · exact Or.inr (Or.inr (Or.inr ⟨q, hq, h⟩))

lemma rules_d_flatMap (dI : Dict ℕ) (dP : Dict (ℕ × ℕ)) (l : List (ℕ × ℕ)) :
    rules_d dI dP l = l.flatMap fun p =>
      [((dP.val p : ℚ) / (dI.val p.1 : ℚ), p.1, p.2, dP.val p),
       ((dP.val p : ℚ) / (dI.val p.2 : ℚ), p.2, p.1, dP.val p)] := by
  induction l with
  | nil => simp [rules_d]
  | cons p rest ih => simp [rules_d, ih]

lemma rules_e_flatMap (dP : Dict (ℕ × ℕ)) (dT : Dict (ℕ × ℕ × ℕ))
    (l : List (ℕ × ℕ × ℕ)) :
    rules_e dP dT l = l.flatMap fun q =>
      [((dT.val q : ℚ) / (dP.val (q.1, q.2.1) : ℚ), (q.1, q.2.1), q.2.2, dT.val q),
       ((dT.val q : ℚ) / (dP.val (q.1, q.2.2) : ℚ), (q.1, q.2.2), q.2.1, dT.val q),
       ((dT.val q : ℚ) / (dP.val (q.2.1, q.2.2) : ℚ), (q.2.1, q.2.2), q.1, dT.val q)] := by
  induction l with
  | nil => simp [rules_e]
  | cons p rest ih =>
    obtain ⟨x, y, z⟩ := p
    simp [rules_e, ih]

lemma rules_d_perm (dI : Dict ℕ) (dP : Dict (ℕ × ℕ)) {l₁ l₂ : List (ℕ × ℕ)}
    (h : l₁.Perm l₂) : (rules_d dI dP l₁).Perm (rules_d dI dP l₂) := by
  rw [rules_d_flatMap, rules_d_flatMap]
  exact h.flatMap_right _

lemma rules_e_perm (dP : Dict (ℕ × ℕ)) (dT : Dict (ℕ × ℕ × ℕ))
    {l₁ l₂ : List (ℕ × ℕ × ℕ)} (h : l₁.Perm l₂) :
    (rules_e dP dT l₁).Perm (rules_e dP dT l₂) := by
  rw [rules_e_flatMap, rules_e_flatMap]
  exact h.flatMap_right _

/-! Among the rules emitted from canonical itemsets, equal sort keys force
equal rules, so the sort order is antisymmetric on the emitted multiset. -/

lemma rules_d_key_eq {dI : Dict ℕ} {dP : Dict (ℕ × ℕ)} {l : List (ℕ × ℕ)}
    (hc : ∀ p ∈ l, p.1 < p.2) {r s : ℚ × ℕ × ℕ × ℕ}
    (hr : r ∈ rules_d dI dP l) (hs : s ∈ rules_d dI dP l)
    (h1 : ruleOrd_d r s) (h2 : ruleOrd_d s r) : r = s := by
  rcases mem_rules_d.mp hr with ⟨p, hp, hrp⟩
  rcases mem_rules_d.mp hs with ⟨q, hq, hsq⟩
  rcases ruleOrd_d_antisymm h1 h2 with ⟨ec, e1, e2⟩
  have hplt := hc p hp
  have hqlt := hc q hq
  rcases hrp with rfl | rfl <;> rcases hsq with rfl | rfl
  · have hpq : p = q := Prod.ext e1 e2
    rw [hpq]
  · exfalso
    simp only at e1 e2
    omega
  · exfalso
    simp only at e1 e2
    omega
  · have hpq : p = q := Prod.ext e2 e1
    rw [hpq]

lemma rules_e_key_eq {dP : Dict (ℕ × ℕ)} {dT : Dict (ℕ × ℕ × ℕ)}
    {l : List (ℕ × ℕ × ℕ)} (hc : ∀ q ∈ l, q.1 < q.2.1 ∧ q.2.1 < q.2.2)
    {r s : ℚ × (ℕ × ℕ) × ℕ × ℕ}
    (hr : r ∈ rules_e dP dT l) (hs : s ∈ rules_e dP dT l)
    (h1 : ruleOrd_e r s) (h2 : ruleOrd_e s r) : r = s := by
  rcases mem_rules_e.mp hr with ⟨p, hp, hrp⟩
  rcases mem_rules_e.mp hs with ⟨q, hq, hsq⟩
  rcases ruleOrd_e_antisymm h1 h2 with ⟨ec, e1, e2, e3⟩
  have hplt := hc p hp
  have hqlt := hc q hq
  have hpq : p = q := by
    rcases hrp with rfl | rfl | rfl <;> rcases hsq with rfl | rfl | rfl <;>
      simp only at e1 e2 e3 <;>
      [skip; omega; omega; omega; skip; omega; omega; omega; skip] <;>
      exact Prod.ext (by omega) (Prod.ext (by omega) (by omega))
  subst hpq
  rcases hrp with rfl | rfl | rfl <;> rcases hsq with rfl | rfl | rfl <;>
    simp only at e1 e2 e3 <;> first
    | rfl
    | omega

/-! A sorted permutation is unique when the order is antisymmetric on the
elements of the list. -/

lemma sorted_perm_eq {α : Type} {r : α → α → Prop} :
    ∀ {l₁ l₂ : List α}, l₁.Perm l₂ → l₁.Sorted r → l₂.Sorted r →
      (∀ a ∈ l₁, ∀ b ∈ l₁, r a b → r b a → a = b) → l₁ = l₂ := by
  intro l₁
  induction l₁ with
  | nil =>
    intro l₂ hp _ _ _
    exact hp.nil_eq
  | cons a t ih =>
    intro l₂ hp hs₁ hs₂ ha
    cases l₂ with
    | nil => exact absurd hp.length_eq (by simp)
    | cons b t₂ =>
      have hab : a = b := by
        by_cases hne : a = b
        · exact hne
        · have hbl : b ∈ a :: t := hp.symm.subset (List.mem_cons_self _ _)
          have hal : a ∈ b :: t₂ := hp.subset (List.mem_cons_self _ _)
          have hb : b ∈ t := by
            rcases List.mem_cons.mp hbl with h | h
            · exact absurd h.symm hne
            · exact h
          have ha2 : a ∈ t₂ := by
            rcases List.mem_cons.mp hal with h | h
            · exact absurd h hne
            · exact h
          have rab : r a b := List.rel_of_sorted_cons hs₁ b hb
          have rba : r b a := List.rel_of_sorted_cons hs₂ a ha2
          exact ha a (List.mem_cons_self _ _) b hbl rab rba
      subst hab
      have hp2 : t.Perm t₂ := hp.cons_inv
      have ht : t = t₂ :=
        ih hp2 hs₁.of_cons hs₂.of_cons fun x hx y hy =>
          ha x (List.mem_cons_of_mem _ hx) y (List.mem_cons_of_mem _ hy)
      rw [ht]

/-! Projections of the pipeline record. -/

@[simp] lemma runPipeline_item_sup (m : ℕ) (ts : List (List ℕ)) :
    (runPipeline m ts).item_sup = (apriori_L1 m ts).1 := rfl

@[simp] lemma runPipeline_L1 (m : ℕ) (ts : List (List ℕ)) :
    (runPipeline m ts).L1 = (apriori_L1 m ts).2 := rfl

@[simp] lemma runPipeline_pair_sup (m : ℕ) (ts : List (List ℕ)) :
    (runPipeline m ts).pair_sup = (apriori_L2 m ts (apriori_L1 m ts).2).1 := rfl

@[simp] lemma runPipeline_L2 (m : ℕ) (ts : List (List ℕ)) :
    (runPipeline m ts).L2 = (apriori_L2 m ts (apriori_L1 m ts).2).2 := rfl

@[simp] lemma runPipeline_C3 (m : ℕ) (ts : List (List ℕ)) :
    (runPipeline m ts).C3 =
      apriori_C3_from_L2 (apriori_L2 m ts (apriori_L1 m ts).2).2 := rfl

@[simp] lemma runPipeline_triple_sup (m : ℕ) (ts : List (List ℕ)) :
    (runPipeline m ts).triple_sup =
      (apriori_L3 m ts
        (apriori_C3_from_L2 (apriori_L2 m ts (apriori_L1 m ts).2).2)).1 := rfl

@[simp] lemma runPipeline_L3 (m : ℕ) (ts : List (List ℕ)) :
    (runPipeline m ts).L3 =
      (apriori_L3 m ts
        (apriori_C3_from_L2 (apriori_L2 m ts (apriori_L1 m ts).2).2)).2 := rfl

/-! Canonical-form facts that chain through the pipeline. -/

lemma pipe_L2_canon (m : ℕ) (ts : List (List ℕ)) :
    ∀ p ∈ (runPipeline m ts).L2,
      p.1 < p.2 ∧ p.1 ∈ (runPipeline m ts).L1 ∧ p.2 ∈ (runPipeline m ts).L1 := by
  intro p hp
  rw [runPipeline_L2] at hp
  rcases (mem_apriori_L2 m ts _ p).mp hp with ⟨hk, _⟩
  rcases (apriori_L2_keys m ts _ (apriori_L1_sorted m ts) p).mp hk with ⟨hC2, _⟩
  rcases (mem_apriori_C2 (apriori_L1_sorted m ts)).mp hC2 with ⟨h1, h2, h3⟩
  exact ⟨h3, by simpa using h1, by simpa using h2⟩

lemma pipe_pair_keys_canon (m : ℕ) (ts : List (List ℕ)) :
    ∀ p ∈ (runPipeline m ts).pair_sup.keys, p.1 < p.2 := by
  intro p hp
  rw [runPipeline_pair_sup] at hp
  rcases (apriori_L2_keys m ts _ (apriori_L1_sorted m ts) p).mp hp with ⟨hC2, _⟩
  exact ((mem_apriori_C2 (apriori_L1_sorted m ts)).mp hC2).2.2

lemma pipe_C3_canon (m : ℕ) (ts : List (List ℕ)) :
    ∀ q ∈ (runPipeline m ts).C3, q.1 < q.2.1 ∧ q.2.1 < q.2.2 := by
  intro q hq
  rw [runPipeline_C3] at hq
  rcases mem_apriori_C3.mp hq with ⟨h1, _, _, hlt⟩
  have := (pipe_L2_canon m ts (q.1, q.2.1) (by simpa using h1)).1
  exact ⟨this, hlt⟩

lemma pipe_L3_sub_C3 (m : ℕ) (ts : List (List ℕ)) :
    ∀ q ∈ (runPipeline m ts).L3, q ∈ (runPipeline m ts).C3 := by
  intro q hq
  rw [runPipeline_L3] at hq
  rcases (mem_apriori_L3 m ts _ q).mp hq with ⟨hk, _⟩
  have := apriori_L3_keys_sub m ts _ q hk
  simpa using this

/-- C4: anti-monotonicity of the computed frequent sets: both items of every
pair in L2 are members of L1, and all three 2-subsets of every triple in C3
(hence of every triple in L3) are members of L2. -/
theorem C4_anti_monotonicity (minSup : ℕ) (ts : List (List ℕ)) :
    (∀ p ∈ (runPipeline minSup ts).L2,
        p.1 ∈ (runPipeline minSup ts).L1 ∧ p.2 ∈ (runPipeline minSup ts).L1) ∧
    (∀ q ∈ (runPipeline minSup ts).C3,
        (q.1, q.2.1) ∈ (runPipeline minSup ts).L2 ∧
        (q.1, q.2.2) ∈ (runPipeline minSup ts).L2 ∧
        (q.2.1, q.2.2) ∈ (runPipeline minSup ts).L2) ∧
    (∀ q ∈ (runPipeline minSup ts).L3,
        (q.1, q.2.1) ∈ (runPipeline minSup ts).L2 ∧
        (q.1, q.2.2) ∈ (runPipeline minSup ts).L2 ∧
        (q.2.1, q.2.2) ∈ (runPipeline minSup ts).L2) := by
  have hC3 : ∀ q ∈ (runPipeline minSup ts).C3,
      (q.1, q.2.1) ∈ (runPipeline minSup ts).L2 ∧
      (q.1, q.2.2) ∈ (runPipeline minSup ts).L2 ∧
      (q.2.1, q.2.2) ∈ (runPipeline minSup ts).L2 := by
    intro q hq
    rw [runPipeline_C3] at hq
    rcases mem_apriori_C3.mp hq with ⟨h1, h2, h3, _⟩
    exact ⟨by simpa using h1, by simpa using h2, by simpa using h3⟩
  refine ⟨?_, hC3, ?_⟩
  · intro p hp
    exact (pipe_L2_canon minSup ts p hp).2
  · intro q hq
    exact hC3 q (pipe_L3_sub_C3 minSup ts q hq)

/-- C5: canonical form of every produced itemset: pairs in C2, in the
pair-support keys and in L2 are strictly increasing, and triples in C3, in
the triple-support keys and in L3 are strictly increasing; in particular no
itemset repeats an item. -/
theorem C5_canonical_form (minSup : ℕ) (ts : List (List ℕ)) :
    (∀ p ∈ apriori_C2 (runPipeline minSup ts).L1, p.1 < p.2) ∧
    (∀ p ∈ (runPipeline minSup ts).pair_sup.keys, p.1 < p.2) ∧
    (∀ p ∈ (runPipeline minSup ts).L2, p.1 < p.2) ∧
    (∀ q ∈ (runPipeline minSup ts).C3, q.1 < q.2.1 ∧ q.2.1 < q.2.2) ∧
    (∀ q ∈ (runPipeline minSup ts).triple_sup.keys,
        q.1 < q.2.1 ∧ q.2.1 < q.2.2) ∧
    (∀ q ∈ (runPipeline minSup ts).L3, q.1 < q.2.1 ∧ q.2.1 < q.2.2) := by
  refine ⟨?_, pipe_pair_keys_canon minSup ts, ?_, pipe_C3_canon minSup ts, ?_, ?_⟩
  · intro p hp
    rw [runPipeline_L1] at hp
    exact ((mem_apriori_C2 (apriori_L1_sorted minSup ts)).mp hp).2.2
  · intro p hp
    exact (pipe_L2_canon minSup ts p hp).1
  · intro q hq
    rw [runPipeline_triple_sup] at hq
    have hqC3 := apriori_L3_keys_sub minSup ts _ q hq
    exact pipe_C3_canon minSup ts q (by simpa using hqC3)
  · intro q hq
    exact pipe_C3_canon minSup ts q (pipe_L3_sub_C3 minSup ts q hq)

/-- C3: every confidence denominator is present and positive: for every pair
in L2 both item supports are recorded, at least minSup and positive, and for
every triple in L3 all three pair supports are recorded, at least minSup and
positive, so the divisions of top5_part_d and top5_part_e never divide by
zero and never miss a key. -/
theorem C3_confidence_denominators (minSup : ℕ) (ts : List (List ℕ)) :
    (∀ p ∈ (runPipeline minSup ts).L2,
        p.1 ∈ (runPipeline minSup ts).item_sup.keys ∧
        p.2 ∈ (runPipeline minSup ts).item_sup.keys ∧
        minSup ≤ (runPipeline minSup ts).item_sup.val p.1 ∧
        minSup ≤ (runPipeline minSup ts).item_sup.val p.2 ∧
        0 < (runPipeline minSup ts).item_sup.val p.1 ∧
        0 < (runPipeline minSup ts).item_sup.val p.2) ∧
    (∀ q ∈ (runPipeline minSup ts).L3,
        (q.1, q.2.1) ∈ (runPipeline minSup ts).pair_sup.keys ∧
        (q.1, q.2.2) ∈ (runPipeline minSup ts).pair_sup.keys ∧
        (q.2.1, q.2.2) ∈ (runPipeline minSup ts).pair_sup.keys ∧
        minSup ≤ (runPipeline minSup ts).pair_sup.val (q.1, q.2.1) ∧
        minSup ≤ (runPipeline minSup ts).pair_sup.val (q.1, q.2.2) ∧
        minSup ≤ (runPipeline minSup ts).pair_sup.val (q.2.1, q.2.2) ∧
        0 < (runPipeline minSup ts).pair_sup.val (q.1, q.2.1) ∧
        0 < (runPipeline minSup ts).pair_sup.val (q.1, q.2.2) ∧
        0 < (runPipeline minSup ts).pair_sup.val (q.2.1, q.2.2)) := by
  constructor
  · intro p hp
    rcases pipe_L2_canon minSup ts p hp with ⟨_, h1, h2⟩
    rw [runPipeline_L1] at h1 h2
    rcases (mem_apriori_L1 minSup ts p.1).mp h1 with ⟨hk1, hv1⟩
    rcases (mem_apriori_L1 minSup ts p.2).mp h2 with ⟨hk2, hv2⟩
    refine ⟨by simpa using hk1, by simpa using hk2, by simpa using hv1,
      by simpa using hv2, ?_, ?_⟩
    · simpa using apriori_L1_pos minSup ts p.1 hk1
    · simpa using apriori_L1_pos minSup ts p.2 hk2
  · intro q hq
    rcases (C4_anti_monotonicity minSup ts).2.2 q hq with ⟨h1, h2, h3⟩
    rw [runPipeline_L2] at h1 h2 h3
    rcases (mem_apriori_L2 minSup ts _ _).mp h1 with ⟨hk1, hv1⟩
    rcases (mem_apriori_L2 minSup ts _ _).mp h2 with ⟨hk2, hv2⟩
    rcases (mem_apriori_L2 minSup ts _ _).mp h3 with ⟨hk3, hv3⟩
    refine ⟨by simpa using hk1, by simpa using hk2, by simpa using hk3,
      by simpa using hv1, by simpa using hv2, by simpa using hv3, ?_, ?_, ?_⟩
    · simpa using apriori_L2_pos minSup ts _ _ hk1
    · simpa using apriori_L2_pos minSup ts _ _ hk2
    · simpa using apriori_L2_pos minSup ts _ _ hk3

/-- C10: a candidate has an entry in the returned support mapping exactly
when it is a candidate and at least one transaction contains it, and every
recorded entry is positive; zero-support candidates have no entry. -/
theorem C10_zero_support_absent (minSup : ℕ) (ts : List (List ℕ)) :
    (∀ p, p ∈ (runPipeline minSup ts).pair_sup.keys ↔
        p ∈ apriori_C2 (runPipeline minSup ts).L1 ∧
          ∃ t ∈ ts, p.1 ∈ t ∧ p.2 ∈ t) ∧
    (∀ q, q ∈ (runPipeline minSup ts).triple_sup.keys ↔
        q ∈ (runPipeline minSup ts).C3 ∧
          ∃ t ∈ ts, q.1 ∈ t ∧ q.2.1 ∈ t ∧ q.2.2 ∈ t) ∧
    (∀ p ∈ (runPipeline minSup ts).pair_sup.keys,
        0 < (runPipeline minSup ts).pair_sup.val p) ∧
    (∀ q ∈ (runPipeline minSup ts).triple_sup.keys,
        0 < (runPipeline minSup ts).triple_sup.val q) := by
  refine ⟨?_, ?_, ?_, ?_⟩
  · intro p
    rw [runPipeline_pair_sup, runPipeline_L1]
    exact apriori_L2_keys minSup ts _ (apriori_L1_sorted minSup ts) p
  · intro q
    rw [runPipeline_triple_sup, runPipeline_C3]
    refine apriori_L3_keys minSup ts _ ?_ q
    intro u hu
    exact pipe_C3_canon minSup ts u (by simpa using hu)
  · intro p hp
    rw [runPipeline_pair_sup] at hp ⊢
    exact apriori_L2_pos minSup ts _ p hp
  · intro q hq
    rw [runPipeline_triple_sup] at hq ⊢
    exact apriori_L3_pos minSup ts _ q hq

/-- C1: support consistency: the recorded support of every item equals the
number of transactions containing it, and the recorded support of every pair
and triple key equals the number of transactions containing that itemset,
provided each transaction is a set (duplicate-free). -/
theorem C1_support_consistency (minSup : ℕ) (ts : List (List ℕ))
    (hnd : ∀ t ∈ ts, t.Nodup) :
    (∀ x, (runPipeline minSup ts).item_sup.val x =
        ts.countP fun t => decide (x ∈ t)) ∧
    (∀ p ∈ (runPipeline minSup ts).pair_sup.keys,
        (runPipeline minSup ts).pair_sup.val p =
          ts.countP fun t => decide (p.1 ∈ t ∧ p.2 ∈ t)) ∧
    (∀ q ∈ (runPipeline minSup ts).triple_sup.keys,
        (runPipeline minSup ts).triple_sup.val q =
          ts.countP fun t => decide (q.1 ∈ t ∧ q.2.1 ∈ t ∧ q.2.2 ∈ t)) := by
  refine ⟨?_, ?_, ?_⟩
  · intro x
    rw [runPipeline_item_sup]
    exact apriori_L1_val minSup ts hnd x
  · intro p hp
    rw [runPipeline_pair_sup] at hp ⊢
    rcases (apriori_L2_keys minSup ts _ (apriori_L1_sorted minSup ts) p).mp hp
      with ⟨hC2, _⟩
    exact apriori_L2_val minSup ts _ hnd (apriori_L1_sorted minSup ts) p hC2
  · intro q hq
    rw [runPipeline_triple_sup] at hq ⊢
    have hqC3 := apriori_L3_keys_sub minSup ts _ q hq
    refine apriori_L3_val minSup ts _ hnd ?_ q hqC3
    intro u hu
    exact pipe_C3_canon minSup ts u (by simpa using hu)

/-- C6: apriori_L1 returns L1 sorted strictly ascending, containing exactly
the items whose support reaches minSup: support exactly minSup is included,
support minSup minus one is excluded (threshold positive, transactions
duplicate-free). -/
theorem C6_L1_threshold (minSup : ℕ) (ts : List (List ℕ)) (hpos : 0 < minSup)
    (hnd : ∀ t ∈ ts, t.Nodup) :
    (apriori_L1 minSup ts).2.Sorted (· < ·) ∧
    ∀ x, (x ∈ (apriori_L1 minSup ts).2 ↔
        minSup ≤ ts.countP fun t => decide (x ∈ t)) := by
  refine ⟨apriori_L1_sorted minSup ts, ?_⟩
  intro x
  rw [mem_apriori_L1, apriori_L1_val minSup ts hnd x]
  constructor
  · rintro ⟨_, h⟩
    exact h
  · intro h
    refine ⟨?_, h⟩
    rw [apriori_L1_keys]
    have hcount : 0 < ts.countP fun t => decide (x ∈ t) := lt_of_lt_of_le hpos h
    rcases List.countP_pos_iff.mp hcount with ⟨t, ht, hx⟩
    exact ⟨t, ht, of_decide_eq_true hx⟩

/-- C7: degenerate inputs give empty outputs and no failure: an empty
transaction list yields empty L1, L2, C3, L3 and empty rule lists; an empty
L2 yields no candidate triples and empty L3 results; and with an empty
candidate set apriori_L3 returns the empty results for every transaction
list without scanning. -/
theorem C7_degenerate_inputs (minSup topK : ℕ) (ts : List (List ℕ)) :
    ((runPipeline minSup []).L1 = [] ∧ (runPipeline minSup []).L2 = [] ∧
     (runPipeline minSup []).C3 = [] ∧ (runPipeline minSup []).L3 = [] ∧
     top5_part_d topK (runPipeline minSup []).item_sup
       (runPipeline minSup []).pair_sup (runPipeline minSup []).L2 = [] ∧
     top5_part_e topK (runPipeline minSup []).pair_sup
       (runPipeline minSup []).triple_sup (runPipeline minSup []).L3 = []) ∧
    apriori_C3_from_L2 [] = [] ∧
    apriori_L3 minSup ts (apriori_C3_from_L2 []) = (Dict.empty, []) ∧
    apriori_L3 minSup ts [] = (Dict.empty, []) := by
  refine ⟨⟨rfl, rfl, rfl, rfl, ?_, ?_⟩, rfl, rfl, rfl⟩
  · have h2 : (runPipeline minSup []).L2 = [] := rfl
    rw [h2]
    simp [top5_part_d, rules_d]
  · have h3 : (runPipeline minSup []).L3 = [] := rfl
    rw [h3]
    simp [top5_part_e, rules_e]

/-- C2: each returned rule list is sorted by the rule order (confidence
descending with the stated tie-breaks), has length min(topK, emitted), and
is a maximal segment: the emitted rules split into the returned list plus a
remainder every element of which sorts after (hence has confidence at most)
every returned rule, so no rule of strictly higher confidence is excluded. -/
theorem C2_topk_correctness (topK : ℕ) (dI : Dict ℕ) (dP : Dict (ℕ × ℕ))
    (dT : Dict (ℕ × ℕ × ℕ)) (L2 : List (ℕ × ℕ)) (L3 : List (ℕ × ℕ × ℕ)) :
    ((top5_part_d topK dI dP L2).Sorted ruleOrd_d ∧
     (top5_part_d topK dI dP L2).length = min topK (rules_d dI dP L2).length ∧
     ∃ rest, (rules_d dI dP L2).Perm (top5_part_d topK dI dP L2 ++ rest) ∧
       ∀ r ∈ top5_part_d topK dI dP L2, ∀ s ∈ rest, ruleOrd_d r s ∧ s.1 ≤ r.1) ∧
    ((top5_part_e topK dP dT L3).Sorted ruleOrd_e ∧
     (top5_part_e topK dP dT L3).length = min topK (rules_e dP dT L3).length ∧
     ∃ rest, (rules_e dP dT L3).Perm (top5_part_e topK dP dT L3 ++ rest) ∧
       ∀ r ∈ top5_part_e topK dP dT L3, ∀ s ∈ rest, ruleOrd_e r s ∧ s.1 ≤ r.1) := by
  constructor
  · have hsorted : (List.insertionSort ruleOrd_d (rules_d dI dP L2)).Sorted ruleOrd_d :=
      List.sorted_insertionSort ruleOrd_d _
    have hperm := List.perm_insertionSort ruleOrd_d (rules_d dI dP L2)
    refine ⟨List.Pairwise.sublist (List.take_sublist topK _) hsorted, ?_,
      (List.insertionSort ruleOrd_d (rules_d dI dP L2)).drop topK, ?_, ?_⟩
    · show ((List.insertionSort ruleOrd_d (rules_d dI dP L2)).take topK).length = _
      rw [List.length_take, hperm.length_eq]
    · show (rules_d dI dP L2).Perm
        ((List.insertionSort ruleOrd_d (rules_d dI dP L2)).take topK ++
          (List.insertionSort ruleOrd_d (rules_d dI dP L2)).drop topK)
      rw [List.take_append_drop]
      exact hperm.symm
    · intro r hr s hs
      have h := hsorted.rel_of_mem_take_of_mem_drop hr hs
      exact ⟨h, ruleOrd_d_conf_le h⟩
  · have hsorted : (List.insertionSort ruleOrd_e (rules_e dP dT L3)).Sorted ruleOrd_e :=
      List.sorted_insertionSort ruleOrd_e _
    have hperm := List.perm_insertionSort ruleOrd_e (rules_e dP dT L3)
    refine ⟨List.Pairwise.sublist (List.take_sublist topK _) hsorted, ?_,
      (List.insertionSort ruleOrd_e (rules_e dP dT L3)).drop topK, ?_, ?_⟩
    · show ((List.insertionSort ruleOrd_e (rules_e dP dT L3)).take topK).length = _
      rw [List.length_take, hperm.length_eq]
    · show (rules_e dP dT L3).Perm
        ((List.insertionSort ruleOrd_e (rules_e dP dT L3)).take topK ++
          (List.insertionSort ruleOrd_e (rules_e dP dT L3)).drop topK)
      rw [List.take_append_drop]
      exact hperm.symm
    · intro r hr s hs
      have h := hsorted.rel_of_mem_take_of_mem_drop hr hs
      exact ⟨h, ruleOrd_e_conf_le h⟩

/-- C9: rule generation is deterministic: for fixed support mappings, the
outputs of top5_part_d and top5_part_e do not depend on the iteration order
of the frequent sets, because equal sort keys only arise for identical rules
when the itemsets iterated over are canonical (strictly increasing). -/
theorem C9_deterministic_ranking (topK : ℕ) (dI : Dict ℕ) (dP : Dict (ℕ × ℕ))
    (dT : Dict (ℕ × ℕ × ℕ)) (l₁ l₂ : List (ℕ × ℕ)) (m₁ m₂ : List (ℕ × ℕ × ℕ))
    (hcl : ∀ p ∈ l₁, p.1 < p.2) (hpl : l₁.Perm l₂)
    (hcm : ∀ q ∈ m₁, q.1 < q.2.1 ∧ q.2.1 < q.2.2) (hpm : m₁.Perm m₂) :
    top5_part_d topK dI dP l₁ = top5_part_d topK dI dP l₂ ∧
    top5_part_e topK dP dT m₁ = top5_part_e topK dP dT m₂ := by
  constructor
  · have hsort_eq : List.insertionSort ruleOrd_d (rules_d dI dP l₁) =
        List.insertionSort ruleOrd_d (rules_d dI dP l₂) := by
      refine sorted_perm_eq ?_ (List.sorted_insertionSort _ _)
        (List.sorted_insertionSort _ _) ?_
      · exact ((List.perm_insertionSort _ _).trans (rules_d_perm dI dP hpl)).trans
          (List.perm_insertionSort _ _).symm
      · intro a ha b hb h1 h2
        rw [List.mem_insertionSort] at ha hb
        exact rules_d_key_eq hcl ha hb h1 h2
    show (List.insertionSort ruleOrd_d (rules_d dI dP l₁)).take topK =
      (List.insertionSort ruleOrd_d (rules_d dI dP l₂)).take topK
    rw [hsort_eq]
  · have hsort_eq : List.insertionSort ruleOrd_e (rules_e dP dT m₁) =
        List.insertionSort ruleOrd_e (rules_e dP dT m₂) := by
      refine sorted_perm_eq ?_ (List.sorted_insertionSort _ _)
        (List.sorted_insertionSort _ _) ?_
      · exact ((List.perm_insertionSort _ _).trans (rules_e_perm dP dT hpm)).trans
          (List.perm_insertionSort _ _).symm
      · intro a ha b hb h1 h2
        rw [List.mem_insertionSort] at ha hb
        exact rules_e_key_eq hcm ha hb h1 h2
    show (List.insertionSort ruleOrd_e (rules_e dP dT m₁)).take topK =
      (List.insertionSort ruleOrd_e (rules_e dP dT m₂)).take topK
    rw [hsort_eq]

/-- C8 counterexample: question_2.py never rejects a nonpositive
configuration: running the pipeline with threshold 0 (MIN_SUPPORT ≤ 0) on
the input [[1]] is not refused — it completes normally and returns L1 = [1],
contradicting the claim that such a configuration is rejected at
configuration time rather than run. -/
theorem C8_counterexample :
    (runPipeline 0 [[1]]).L1 = [1] ∧ (runPipeline 0 [[1]]).L2 = [] ∧
      MIN_SUPPORT = 100 ∧ TOP_K = 5 := by
  exact ⟨by decide, by decide, rfl, rfl⟩

/-- C8 amended: question_2.py performs no configuration-time validation at
all; the configuration constants are hard-coded to MIN_SUPPORT = 100 and
TOP_K = 5 (both positive), and a nonpositive threshold is silently accepted:
with threshold 0 the pipeline runs and L1 contains exactly the items that
occur in some transaction. -/
theorem C8_no_config_validation :
    MIN_SUPPORT = 100 ∧ TOP_K = 5 ∧ 0 < MIN_SUPPORT ∧ 0 < TOP_K ∧
    ∀ (ts : List (List ℕ)) (x : ℕ),
      x ∈ (runPipeline 0 ts).L1 ↔ ∃ t ∈ ts, x ∈ t := by
  refine ⟨rfl, rfl, by decide, by decide, ?_⟩
  intro ts x
  rw [runPipeline_L1, mem_apriori_L1, apriori_L1_keys]
  constructor
  · rintro ⟨h, _⟩
    exact h
  · intro h
    exact ⟨h, Nat.zero_le _⟩

/-- A five-transaction fixture: the scenario of the specification with
items A, B, C rendered as 1, 2, 3 and threshold 2. -/
def sampleT : List (List ℕ) :=
  [[1, 2, 3], [1, 2], [1, 3], [2, 3], [1, 2, 3]]

theorem C1_support_consistency_witness :
    (∀ t ∈ sampleT, t.Nodup) ∧
    (1, 2) ∈ (runPipeline 2 sampleT).pair_sup.keys ∧
    (runPipeline 2 sampleT).pair_sup.val (1, 2) =
      sampleT.countP fun t => decide ((1 : ℕ) ∈ t ∧ (2 : ℕ) ∈ t) :=
  ⟨by decide, by decide,
    (C1_support_consistency 2 sampleT (by decide)).2.1 (1, 2) (by decide)⟩

theorem C2_topk_correctness_witness :
    (top5_part_d 5 (runPipeline 2 sampleT).item_sup
      (runPipeline 2 sampleT).pair_sup (runPipeline 2 sampleT).L2).Sorted
        ruleOrd_d :=
  (C2_topk_correctness 5 (runPipeline 2 sampleT).item_sup
    (runPipeline 2 sampleT).pair_sup (runPipeline 2 sampleT).triple_sup
    (runPipeline 2 sampleT).L2 (runPipeline 2 sampleT).L3).1.1

theorem C3_confidence_denominators_witness :
    (1, 2, 3) ∈ (runPipeline 2 sampleT).L3 ∧
    0 < (runPipeline 2 sampleT).pair_sup.val (1, 2) :=
  ⟨by decide,
    ((C3_confidence_denominators 2 sampleT).2 (1, 2, 3) (by decide)).2.2.2.2.2.2.1⟩

theorem C4_anti_monotonicity_witness :
    (1, 2, 3) ∈ (runPipeline 2 sampleT).L3 ∧
    (1, 2) ∈ (runPipeline 2 sampleT).L2 :=
  ⟨by decide, ((C4_anti_monotonicity 2 sampleT).2.2 (1, 2, 3) (by decide)).1⟩

theorem C5_canonical_form_witness :
    (1, 2, 3) ∈ (runPipeline 2 sampleT).C3 ∧ (1 : ℕ) < 2 ∧ (2 : ℕ) < 3 :=
  ⟨by decide, ((C5_canonical_form 2 sampleT).2.2.2.1 (1, 2, 3) (by decide)).1,
    ((C5_canonical_form 2 sampleT).2.2.2.1 (1, 2, 3) (by decide)).2⟩

theorem C6_L1_threshold_witness :
    (0 < 2 ∧ ∀ t ∈ sampleT, t.Nodup) ∧
    ((1 : ℕ) ∈ (apriori_L1 2 sampleT).2 ↔
      2 ≤ sampleT.countP fun t => decide ((1 : ℕ) ∈ t)) :=
  ⟨⟨by decide, by decide⟩, (C6_L1_threshold 2 sampleT (by decide) (by decide)).2 1⟩

theorem C9_deterministic_ranking_witness :
    top5_part_d 5 Dict.empty Dict.empty [(1, 2), (1, 3)] =
      top5_part_d 5 Dict.empty Dict.empty [(1, 3), (1, 2)] ∧
    top5_part_e 5 Dict.empty Dict.empty [(1, 2, 3), (2, 3, 4)] =
      top5_part_e 5 Dict.empty Dict.empty [(2, 3, 4), (1, 2, 3)] :=
  C9_deterministic_ranking 5 Dict.empty Dict.empty Dict.empty
    [(1, 2), (1, 3)] [(1, 3), (1, 2)] [(1, 2, 3), (2, 3, 4)] [(2, 3, 4), (1, 2, 3)]
    (by decide) (List.Perm.swap (1, 3) (1, 2) []) (by decide)
    (List.Perm.swap (2, 3, 4) (1, 2, 3) [])

theorem C10_zero_support_absent_witness :
    (1, 2) ∈ (runPipeline 2 sampleT).pair_sup.keys ↔
      (1, 2) ∈ apriori_C2 (runPipeline 2 sampleT).L1 ∧
        ∃ t ∈ sampleT, (1 : ℕ) ∈ t ∧ (2 : ℕ) ∈ t :=
  (C10_zero_support_absent 2 sampleT).1 (1, 2)

end Apriori
